import Mathlib

/-!
Shallow embedding of the caption-to-text pipeline of the YouTube transcript
viewer (src/app.py and src/script.py).

Python strings are modelled as `List Char` (`Str`).  The Python string
primitives used by the source (`str.strip`, `str.splitlines`,
`str.startswith`, `"\n".join`, the `in` substring test) are modelled by the
corresponding executable functions below.  Python `str.strip` removes all
whitespace characters; we model the whitespace class by the four ASCII
whitespace characters that can actually occur in the data handled here.
-/

abbrev Str := List Char

/-- The whitespace class used by the model of Python `str.strip`. -/
def isWs (c : Char) : Bool :=
  c = ' ' || c = '\t' || c = '\n' || c = '\r'

/-- Model of Python `str.rstrip` (right side only). -/
def rstripChars (l : Str) : Str :=
  (l.reverse.dropWhile isWs).reverse

/-- Model of Python `str.strip()`: remove leading and trailing whitespace. -/
def pstrip (l : Str) : Str :=
  (rstripChars l).dropWhile isWs

/-- Split a character list at every occurrence of `sep` (like Python
`str.split(sep)` for a one-character separator): always returns at least one
(possibly empty) piece. -/
def splitOnChar (sep : Char) : Str → List Str
  | [] => [[]]
  | c :: rest =>
    if c = sep then [] :: splitOnChar sep rest
    else
      match splitOnChar sep rest with
      | [] => [[c]]
      | g :: gs => (c :: g) :: gs

/-- Model of Python `str.splitlines()` (for `\n` line boundaries, the only
boundary occurring in the data): no trailing empty piece for a trailing
newline, and the empty string yields no lines. -/
def splitlines (s : Str) : List Str :=
  if s = [] then []
  else if s.getLast? = some '\n' then (splitOnChar '\n' s).dropLast
  else splitOnChar '\n' s

/-- Model of Python `str.startswith`. -/
def startswith (p s : Str) : Bool :=
  List.isPrefixOf p s

/-- Model of the Python substring test `p in s`. -/
def hasSubstr (p : Str) : Str → Bool
  | [] => List.isPrefixOf p []
  | c :: rest => List.isPrefixOf p (c :: rest) || hasSubstr p rest

/-- Model of `'-->' in line`, the time-range line test of the cue parser. -/
def hasArrow (s : Str) : Bool :=
  hasSubstr ('-' :: '-' :: '>' :: []) s

/-- The header/metadata test of `parse_vtt_with_timestamps` and
`format_transcript_into_paragraphs`: `line.startswith('WEBVTT')` or
`line.startswith('Kind:')` or `line.startswith('Language:')`. -/
def isHeaderLine (s : Str) : Bool :=
  startswith ("WEBVTT".toList) s || startswith ("Kind:".toList) s ||
    startswith ("Language:".toList) s

/-- Split a list at the first occurrence of the character `ch`: returns the
part strictly before and the part strictly after it. -/
def findSplit (ch : Char) : Str → Option (Str × Str)
  | [] => none
  | x :: rest =>
    if x = ch then some ([], rest)
    else
      match findSplit ch rest with
      | some (b, a) => some (x :: b, a)
      | none => none

/-- Fuelled worker for the model of `re.sub(r'<[^>]+>', '', s)` (with `o`/`c`
the opening and closing delimiter): scan left to right; an opening delimiter
followed by a nonempty closer-free run and then the closing delimiter is
removed together with that run, anything else is kept.  The fuel is only a
termination device; `stripDelim` supplies enough fuel for it never to run
out. -/
def stripDelimF (o c : Char) : Nat → Str → Str
  | _, [] => []
  | 0, s => s
  | fuel + 1, x :: rest =>
    if x = o then
      match findSplit c rest with
      | some (middle, after) =>
        if middle = [] then x :: stripDelimF o c fuel rest
        else stripDelimF o c fuel after
      | none => x :: stripDelimF o c fuel rest
    else x :: stripDelimF o c fuel rest

/-- Model of `re.sub(r'<[^>]+>', '', s)` for delimiters `o`, `c`. -/
def stripDelim (o c : Char) (s : Str) : Str :=
  stripDelimF o c s.length s

/-- The tag/brace stripping applied to each text line by the source
(app.py lines 87-88 and 104-105): first remove angle-bracket-delimited tags,
then curly-brace-delimited style directives. -/
def cleanLine (s : Str) : Str :=
  stripDelim '{' '}' (stripDelim '<' '>' s)

/-- The timestamp marker `f"[{line}]"`. -/
def tsMarker (line : Str) : Str :=
  '[' :: (line ++ [']'])

/-- The line loop of `parse_vtt_with_timestamps` (app.py lines 75-91).
`cur` is the Python variable `current_timestamp` (`[]` models the empty
string).  The lookahead `lines[i+1]` of the source is the head of the
remaining lines. -/
def parseLoop : List Str → Str → List Str
  | [], _ => []
  | l :: rest, cur =>
    let line := pstrip l
    if isHeaderLine line then parseLoop rest cur
    else if hasArrow line then
      match rest with
      | [] => []  -- `i + 1 < len(lines)` fails: the loop ends with no more output
      | nxt :: _ =>
        if pstrip nxt ≠ [] ∧ hasArrow (pstrip nxt) = false then
          tsMarker line :: parseLoop rest (tsMarker line)
        else parseLoop rest []
    else if line ≠ [] ∧ cur ≠ [] then
      cleanLine line :: [] :: parseLoop rest []
    else parseLoop rest cur

/-- Model of Python `sep.join(pieces)`. -/
def joinWith (sep : Str) : List Str → Str
  | [] => []
  | [x] => x
  | x :: y :: rest => x ++ sep ++ joinWith sep (y :: rest)

def joinSp (xs : List Str) : Str := joinWith [' '] xs

def joinNl (xs : List Str) : Str := joinWith ['\n'] xs

def joinBlank (xs : List Str) : Str := joinWith ['\n', '\n'] xs

/-- Function `parse_vtt_with_timestamps` (app.py lines 70-92), the Timestamped
Renderer. -/
def parse_vtt_with_timestamps (vtt_content : Str) : Str :=
  pstrip (joinNl (parseLoop (splitlines (pstrip vtt_content)) []))

/-- Model of `re.match(r'^[a-zA-Z]+:.+', s)` viewed as a Boolean: a nonempty
run of ASCII letters, then `:`, then at least one character matched by `.`
(any character other than a newline).  Since `:` is not a letter, the run of
letters consumed by a successful match is exactly the maximal leading run. -/
def labelMatch (s : Str) : Bool :=
  let letters := s.takeWhile Char.isAlpha
  letters ≠ [] &&
    match s.drop letters.length with
    | ':' :: d :: _ => d ≠ '\n'
    | _ => false

/-- The text-segment extraction of `format_transcript_into_paragraphs`
(app.py lines 99-107): skip header lines, time-range lines and blank lines;
strip tags and braces; keep the re-stripped cleaned line unless it is empty
or matches the `label:` pattern. -/
def extractSegments (vtt_content : Str) : List Str :=
  (splitlines (pstrip vtt_content)).filterMap fun l =>
    let line := pstrip l
    if isHeaderLine line || hasArrow line || line.isEmpty then none
    else
      let cleaned := cleanLine line
      if cleaned = [] ∨ labelMatch cleaned then none
      else some (pstrip cleaned)

/-- The paragraph-accumulation loop of `format_transcript_into_paragraphs`
(app.py lines 126-133 and 136-143): append the item to the current group and
flush the group when it reaches `k` items or the item is the last one. -/
def goGroup (k : Nat) : List Str → List Str → List Str
  | _, [] => []
  | acc, x :: rest =>
    if k ≤ (acc ++ [x]).length || rest.isEmpty then
      joinSp (acc ++ [x]) :: goGroup k [] rest
    else goGroup k (acc ++ [x]) rest

/-- The grouping loop started from an empty current group. -/
def groupSegs (k : Nat) (items : List Str) : List Str :=
  goGroup k [] items

/-- The accumulation loop of `goGroup` with the joining removed: the groups
it builds, used to relate the loop to `chunksExact`. -/
def chunksAux (k : Nat) : List α → List α → List (List α)
  | _, [] => []
  | acc, x :: rest =>
    if k ≤ (acc ++ [x]).length || rest.isEmpty then
      (acc ++ [x]) :: chunksAux k [] rest
    else chunksAux k (acc ++ [x]) rest

def couldNotExtractMsg : Str :=
  "Could not extract text content for formatting.".toList

/-- Function `format_transcript_into_paragraphs` (app.py lines 94-145), the Paragraph
Formatter.  The external Sentence Tokenizer collaborator (`nltk.sent_tokenize`)
is a parameter `tok`; the claims about the formatter quantify over it and
concern the case of successful tokenization, so `tok` is a total function.
The source's keyword defaults `sentences_per_paragraph=5` and
`lines_per_fallback_paragraph=8` are passed explicitly by callers here. -/
def format_transcript_into_paragraphs (tok : Str → List Str) (vtt_content : Str)
    (sentences_per_paragraph lines_per_fallback_paragraph : Nat) : Str :=
  let text_segments := extractSegments vtt_content
  if text_segments.isEmpty then couldNotExtractMsg
  else
    let full_text := joinSp text_segments
    let sentences := tok full_text
    let threshold := max 5 (text_segments.length / 10)
    let formatted_output :=
      if threshold < sentences.length then
        groupSegs sentences_per_paragraph sentences
      else groupSegs lines_per_fallback_paragraph text_segments
    pstrip (joinBlank formatted_output)

/-- Partition a list into consecutive groups of exactly `k` elements, the
final group possibly shorter (the spec-side description of the grouping
performed by the Paragraph Formatter). -/
def chunksExact (k : Nat) : List α → List (List α)
  | [] => []
  | x :: rest => (x :: rest.take (k - 1)) :: chunksExact k (rest.drop (k - 1))
  termination_by l => l.length
  decreasing_by simp [List.length_drop]; omega

/-- Replace every occurrence of a blank-line separator (`"\n\n"`) by a single
space (the spec-side operation of claim C10), with Python `str.replace`'s
leftmost non-overlapping semantics. -/
def replaceNlNl : Str → Str
  | [] => []
  | c :: rest =>
    if c = '\n' then
      match rest with
      | d :: rest' =>
        if d = '\n' then ' ' :: replaceNlNl rest' else c :: replaceNlNl (d :: rest')
      | [] => c :: replaceNlNl []
    else c :: replaceNlNl rest

/-!
Model of the external URL-parsing collaborator (`urllib.parse.urlparse` and
`parse_qs`), restricted to the fields the extractors read (`hostname`,
`path`, `query`).  Simplifications relative to CPython, none of which affect
the URL shapes the claims are about: percent-decoding and `+`-decoding of
query values are omitted, and bracketed IPv6 hosts are not special-cased.
-/

/-- Valid characters of a URL scheme after the leading letter. -/
def isSchemeChar (c : Char) : Bool :=
  c.isAlphanum || c = '+' || c = '-' || c = '.'

/-- Split off `scheme:` when the prefix before the first `:` is a valid
scheme (a letter followed by scheme characters); otherwise leave the URL
unchanged. -/
def splitScheme (url : Str) : Str :=
  match findSplit ':' url with
  | some (before, after) =>
    if (match before with
        | c :: _ => c.isAlpha
        | [] => false) && before.all isSchemeChar
    then after else url
  | none => url

/-- Split off the network location: present only after a leading `//`, and
extends to the first `/`, `?` or `#`. -/
def splitNetloc (rest : Str) : Str × Str :=
  if startswith ['/', '/'] rest then
    let r := rest.drop 2
    let netloc := r.takeWhile fun c => !(c = '/' || c = '?' || c = '#')
    (netloc, r.drop netloc.length)
  else ([], rest)

/-- Drop the fragment: everything from the first `#` on. -/
def dropFragment (s : Str) : Str :=
  match findSplit '#' s with
  | some (b, _) => b
  | none => s

/-- Split path and query at the first `?`. -/
def splitQuery (s : Str) : Str × Str :=
  match findSplit '?' s with
  | some (b, a) => (b, a)
  | none => (s, [])

/-- The part of the netloc after the last `@` (drop userinfo). -/
def afterLastAt (netloc : Str) : Str :=
  (netloc.reverse.takeWhile fun c => !(c = '@')).reverse

/-- Model of `urlparse(url).hostname`: netloc without userinfo and port, lowercased;
`none` when empty. -/
def hostnameOf (netloc : Str) : Option Str :=
  let h := (afterLastAt netloc).takeWhile fun c => !(c = ':')
  if h = [] then none else some (h.map Char.toLower)

structure ParsedUrl where
  hostname : Option Str
  path : Str
  query : Str
deriving DecidableEq

/-- The model of `urllib.parse.urlparse`, restricted to the fields used. -/
def urlparse (url : Str) : ParsedUrl :=
  let r1 := splitScheme url
  let (netloc, r2) := splitNetloc r1
  let r3 := dropFragment r2
  let (path, query) := splitQuery r3
  ⟨hostnameOf netloc, path, query⟩

/-- Model of `urllib.parse.parse_qsl` with the default keyword arguments:
split the query on `&`; a field without `=` or with an empty value is
dropped. -/
def parse_qsl (q : Str) : List (Str × Str) :=
  (splitOnChar '&' q).filterMap fun field =>
    match findSplit '=' field with
    | none => none
    | some (name, value) => if value = [] then none else some (name, value)

/-- Model of `parse_qs(query).get(key, [None])[0]`: the first value of the repeated
query parameter `key`, or `none` when absent. -/
def qsFirst (q : Str) (key : Str) : Option Str :=
  ((parse_qsl q).filter fun e => decide (e.1 = key)).head?.map (·.2)

/-- Model of `parsed_url.path.split('/')[2]`, the path segment immediately following
`/embed/` or `/v/` (total model: the callers guard the path with a
`startswith` test, so index 2 always exists there). -/
def pathSeg2 (path : Str) : Str :=
  ((splitOnChar '/' path).drop 2).headD []

namespace App

/-- Function `extract_video_id` of src/app.py (lines 55-68).  The Python `try/except`
returns `None` on a parse failure; the model of `urlparse` is total, so no
exceptional branch arises. -/
def extract_video_id (url : Str) : Option Str :=
  let p := urlparse url
  match p.hostname with
  | some h =>
    if h = "www.youtube.com".toList ∨ h = "youtube.com".toList ∨
        h = "m.youtube.com".toList then
      if p.path = "/watch".toList then qsFirst p.query ("v".toList)
      else if startswith ("/embed/".toList) p.path ∨ startswith ("/v/".toList) p.path then
        some (pathSeg2 p.path)
      else none
    else if h = "youtu.be".toList then some (p.path.drop 1)
    else none
  | none => none

end App

namespace Script

/-- Function `extract_video_id` of src/script.py (lines 6-41): same shape as the
app.py extractor, but the short-link host is tested first and the mobile
domain `m.youtube.com` is not recognized. -/
def extract_video_id (url : Str) : Option Str :=
  let p := urlparse url
  match p.hostname with
  | some h =>
    if h = "youtu.be".toList then some (p.path.drop 1)
    else if h = "www.youtube.com".toList ∨ h = "youtube.com".toList then
      if p.path = "/watch".toList then qsFirst p.query ("v".toList)
      else if startswith ("/embed/".toList) p.path ∨ startswith ("/v/".toList) p.path then
        some (pathSeg2 p.path)
      else none
    else none
  | none => none

end Script

/-- The shape of the Identifier Extractor contract stated by the spec and by
claim C6, parameterized by the host set accepted for the canonical watch
path and the host set accepted for the embed-style and legacy-style
prefixes.  This definition follows the claim's words (its priority order and
its case split), for comparison with the code's extractors. -/
def claimShape (watchHosts embedHosts : List Str) (url : Str) : Option Str :=
  let p := urlparse url
  match p.hostname with
  | none => none
  | some h =>
    if h = "youtu.be".toList then some (p.path.drop 1)
    else if h ∈ watchHosts ∧ p.path = "/watch".toList then qsFirst p.query ("v".toList)
    else if h ∈ embedHosts ∧
        (startswith ("/embed/".toList) p.path ∨ startswith ("/v/".toList) p.path) then
      some (pathSeg2 p.path)
    else none

/-- The recognized main domains of the platform. -/
def mainHosts : List Str := ["www.youtube.com".toList, "youtube.com".toList]

/-- The recognized main and mobile domains. -/
def allHosts : List Str := mainHosts ++ ["m.youtube.com".toList]

/-- Claim C6's literal description: watch accepts main and mobile domains,
embed-style prefixes accept only main domains. -/
def claimExtract (url : Str) : Option Str :=
  claimShape allHosts mainHosts url

/-!
Model of `get_transcript_data` (app.py lines 147-188), the Pipeline
Orchestrator.  The external caption-retrieval collaborator (yt-dlp) is
abstracted by a `RetrievalOutcome`; the file system that it stages the
subtitle file into is threaded explicitly as an association list from paths
to file contents.  Per the collaborator contract of the spec (section 6),
staging happens only when the download succeeds; the `unexpected` outcome
models an exception raised before a subtitle file is located.  `os.remove`
in the `finally` block is modelled as always succeeding.
-/

/-- A single quote character, used inside the error message literals. -/
def squoteChar : Char := Char.ofNat 39

/-- The result dictionary of `get_transcript_data`.  The early `return
{'error': ...}` of the source produces a dictionary without the other keys;
a missing key reads as `None`, which is modelled by the empty string. -/
structure TranscriptResult where
  timestamped : Str
  paragraph : Str
  error : Option Str
deriving DecidableEq

/-- The possible behaviours of the caption-retrieval collaborator for one
invocation: a successful download that may have staged a subtitle file
(path and contents) plus whether any captions/subtitles exist; the three
recognized `DownloadError` shapes plus the generic one; or an unexpected
exception. -/
inductive RetrievalOutcome where
  | downloaded (staged : Option (Str × Str)) (hasCaptions : Bool)
  | noSubsFound
  | videoUnavailable
  | noVideoData
  | downloadFailed
  | unexpected (msg : Str)
deriving DecidableEq

/-- List `possible_paths` (app.py line 164): `f"{base}.{lang}.vtt"` and
`f"{base}.vtt"` for `base = f"{video_id}_transcript_{language}"`. -/
def possiblePaths (vid lang : Str) : List Str :=
  [vid ++ "_transcript_".toList ++ lang ++ ['.'] ++ lang ++ ".vtt".toList,
   vid ++ "_transcript_".toList ++ lang ++ ".vtt".toList]

def fsHas (fs : List (Str × Str)) (p : Str) : Bool :=
  fs.any fun e => decide (e.1 = p)

def fsRead (fs : List (Str × Str)) (p : Str) : Str :=
  ((fs.find? fun e => decide (e.1 = p)).map (·.2)).getD []

def fsRemove (fs : List (Str × Str)) (p : Str) : List (Str × Str) :=
  fs.filter fun e => decide (e.1 ≠ p)

def errNoId : Str :=
  "Error: Could not extract a valid YouTube video ID from the URL.".toList

def errNoCaptions (lang : Str) : Str :=
  "Error: No subtitles/captions available (lang: ".toList ++ [squoteChar] ++ lang ++ [squoteChar]
    ++ ").".toList

def errNotCreated : Str := "Error: Subtitle file not created by yt-dlp.".toList

def errEmptyContent : Str :=
  "Error: Parsing subtitle file resulted in empty content.".toList

def errNoSubsFound (lang : Str) : Str :=
  "Error: No subtitles/captions found (lang: ".toList ++ [squoteChar] ++ lang ++ [squoteChar]
    ++ ").".toList

def errVideoUnavailable : Str := "Error: Video unavailable.".toList

def errNoVideoData : Str := "Error: Could not download video metadata.".toList

def errDownloadGeneric : Str :=
  "Error during download/extraction (yt-dlp).".toList

def errUnexpected (m : Str) : Str :=
  "An unexpected error occurred during processing: ".toList ++ m

/-- Function `get_transcript_data` (app.py lines 147-188): returns the result
dictionary together with the final file-system state after the `finally`
cleanup. -/
def get_transcript_data (outcome : RetrievalOutcome) (tok : Str → List Str)
    (url lang : Str) (fs0 : List (Str × Str)) :
    TranscriptResult × List (Str × Str) :=
  match App.extract_video_id url with
  | none => (⟨[], [], some errNoId⟩, fs0)
  | some vid =>
    if vid = [] then (⟨[], [], some errNoId⟩, fs0)
    else
      match outcome with
      | .downloaded staged hasCaptions =>
        let fs1 := match staged with
          | some pv => fs0 ++ [pv]
          | none => fs0
        match (possiblePaths vid lang).find? (fun p => fsHas fs1 p) with
        | none =>
          (⟨[], [], some (if hasCaptions then errNotCreated else errNoCaptions lang)⟩,
           fs1)
        | some p =>
          let vtt_content := fsRead fs1 p
          let ts := parse_vtt_with_timestamps vtt_content
          let para := format_transcript_into_paragraphs tok vtt_content 5 8
          (⟨ts, para, if ts = [] ∧ para = [] then some errEmptyContent else none⟩,
           fsRemove fs1 p)
      | .noSubsFound => (⟨[], [], some (errNoSubsFound lang)⟩, fs0)
      | .videoUnavailable => (⟨[], [], some errVideoUnavailable⟩, fs0)
      | .noVideoData => (⟨[], [], some errNoVideoData⟩, fs0)
      | .downloadFailed => (⟨[], [], some errDownloadGeneric⟩, fs0)
      | .unexpected m => (⟨[], [], some (errUnexpected m)⟩, fs0)

/-! ### The no-delimiter invariant of stripped output -/

/-- Predicate `hasChar ch l`: some character of `l` is `ch`. -/
def hasChar (ch : Char) : Str → Bool
  | [] => false
  | x :: rest => x = ch || hasChar ch rest

/-- Predicate `headIs ch l`: `l` starts with the character `ch`. -/
def headIs (ch : Char) : Str → Bool
  | x :: _ => x = ch
  | [] => false

/-- No removable delimiter pair remains: every occurrence of the opening
delimiter is either followed immediately by the closing delimiter (an empty
pair, which the regular expression does not match) or has no closing
delimiter anywhere after it. -/
def noDelimB (o c : Char) : Str → Bool
  | [] => true
  | x :: rest =>
    (if x = o then !hasChar c rest || headIs c rest else true) && noDelimB o c rest

/-! ### Lemmas about `findSplit` -/

theorem findSplit_none {ch : Char} : ∀ {l : Str}, findSplit ch l = none → ch ∉ l := by
  intro l
  induction l with
  | nil => intro _; simp
  | cons x rest ih =>
    intro h
    by_cases hx : x = ch
    · simp [findSplit, hx] at h
    · simp only [findSplit, if_neg hx] at h
      cases hfs : findSplit ch rest with
      | some ba => obtain ⟨b, a⟩ := ba; rw [hfs] at h; simp at h
      | none =>
        rw [hfs] at h
        simp only [List.mem_cons, not_or]
        exact ⟨fun hc => hx hc.symm, ih hfs⟩

theorem findSplit_some {ch : Char} :
    ∀ {l b a : Str}, findSplit ch l = some (b, a) → l = b ++ ch :: a ∧ ch ∉ b := by
  intro l
  induction l with
  | nil => intro b a h; simp [findSplit] at h
  | cons x rest ih =>
    intro b a h
    by_cases hx : x = ch
    · simp only [findSplit, if_pos hx, Option.some.injEq, Prod.mk.injEq] at h
      obtain ⟨hb, ha⟩ := h
      subst hb ha
      simp [hx]
    · simp only [findSplit, if_neg hx] at h
      cases hfs : findSplit ch rest with
      | none => rw [hfs] at h; simp at h
      | some ba =>
        obtain ⟨b', a'⟩ := ba
        rw [hfs] at h
        simp only [Option.some.injEq, Prod.mk.injEq] at h
        obtain ⟨hb, ha⟩ := h
        obtain ⟨he, hnb⟩ := ih hfs
        subst hb ha
        constructor
        · simp [he]
        · simp only [List.mem_cons, not_or]
          exact ⟨fun hc => hx hc.symm, hnb⟩

/-! ### Lemmas about `stripDelimF` -/

theorem stripDelimF_sublist (o c : Char) :
    ∀ (fuel : Nat) (s : Str), List.Sublist (stripDelimF o c fuel s) s := by
  intro fuel
  induction fuel with
  | zero => intro s; cases s <;> simp [stripDelimF]
  | succ fuel ih =>
    intro s
    cases s with
    | nil => simp [stripDelimF]
    | cons x rest =>
      by_cases hx : x = o
      · cases hfs : findSplit c rest with
        | none =>
          simp only [stripDelimF, if_pos hx, hfs]
          exact (ih rest).cons₂ x
        | some ba =>
          obtain ⟨b, a⟩ := ba
          by_cases hb : b = []
          · simp only [stripDelimF, if_pos hx, hfs, if_pos hb]
            exact (ih rest).cons₂ x
          · simp only [stripDelimF, if_pos hx, hfs, if_neg hb]
            have ha : List.Sublist a rest := by
              obtain ⟨he, -⟩ := findSplit_some hfs
              rw [he, show b ++ c :: a = (b ++ [c]) ++ a by simp]
              exact List.sublist_append_right _ _
            exact ((ih a).trans ha).cons x
      · simp only [stripDelimF, if_neg hx]
        exact (ih rest).cons₂ x

theorem stripDelimF_fuel (o c : Char) :
    ∀ (f1 : Nat) (s : Str) (f2 : Nat), s.length ≤ f1 → s.length ≤ f2 →
      stripDelimF o c f1 s = stripDelimF o c f2 s := by
  intro f1
  induction f1 with
  | zero =>
    intro s f2 h1 _
    have hs : s = [] := List.length_eq_zero.mp (Nat.le_zero.mp h1)
    subst hs
    cases f2 <;> simp [stripDelimF]
  | succ f1 ih =>
    intro s f2 h1 h2
    cases s with
    | nil => cases f2 <;> simp [stripDelimF]
    | cons x rest =>
      cases f2 with
      | zero => simp at h2
      | succ f2 =>
        have hr1 : rest.length ≤ f1 := by simp at h1; omega
        have hr2 : rest.length ≤ f2 := by simp at h2; omega
        by_cases hx : x = o
        · cases hfs : findSplit c rest with
          | none =>
            simp only [stripDelimF, if_pos hx, hfs]
            rw [ih rest f2 hr1 hr2]
          | some ba =>
            obtain ⟨b, a⟩ := ba
            have ha : a.length ≤ rest.length := by
              obtain ⟨he, -⟩ := findSplit_some hfs
              rw [he]; simp; omega
            by_cases hb : b = []
            · simp only [stripDelimF, if_pos hx, hfs, if_pos hb]
              rw [ih rest f2 hr1 hr2]
            · simp only [stripDelimF, if_pos hx, hfs, if_neg hb]
              exact ih a f2 (le_trans ha hr1) (le_trans ha hr2)
        · simp only [stripDelimF, if_neg hx]
          rw [ih rest f2 hr1 hr2]

theorem hasChar_iff {ch : Char} : ∀ {l : Str}, hasChar ch l = true ↔ ch ∈ l := by
  intro l
  induction l with
  | nil => simp [hasChar]
  | cons x rest ih =>
    simp only [hasChar, Bool.or_eq_true, decide_eq_true_eq, List.mem_cons, ih]
    constructor
    · rintro (h | h)
      · exact Or.inl h.symm
      · exact Or.inr h
    · rintro (h | h)
      · exact Or.inl h.symm
      · exact Or.inr h

theorem hasChar_false_of_sublist {ch : Char} {l l' : Str}
    (hs : List.Sublist l' l) (h : hasChar ch l = false) : hasChar ch l' = false := by
  rw [← Bool.not_eq_true] at h ⊢
  intro h'
  exact h (hasChar_iff.mpr (hs.subset (hasChar_iff.mp h')))

theorem noDelimB_tail {o c : Char} {x : Char} {rest : Str}
    (h : noDelimB o c (x :: rest) = true) : noDelimB o c rest = true := by
  simp only [noDelimB, Bool.and_eq_true] at h
  exact h.2

theorem noDelimB_append_right {o c : Char} :
    ∀ {u v : Str}, noDelimB o c (u ++ v) = true → noDelimB o c v = true := by
  intro u
  induction u with
  | nil => intro v h; exact h
  | cons z w ih => intro v h; exact ih (noDelimB_tail h)

theorem noDelimB_cons (o c x : Char) (rest : Str) :
    noDelimB o c (x :: rest) =
      ((if x = o then !hasChar c rest || headIs c rest else true) &&
        noDelimB o c rest) := rfl

theorem noDelim_stripF (o c : Char) (hoc : o ≠ c) :
    ∀ (fuel : Nat) (s : Str), s.length ≤ fuel →
      noDelimB o c (stripDelimF o c fuel s) = true := by
  intro fuel
  induction fuel with
  | zero =>
    intro s h
    have hs : s = [] := List.length_eq_zero.mp (Nat.le_zero.mp h)
    subst hs
    simp [stripDelimF, noDelimB]
  | succ fuel ih =>
    intro s h
    cases s with
    | nil => simp [stripDelimF, noDelimB]
    | cons x rest =>
      have hr : rest.length ≤ fuel := by simp at h; omega
      by_cases hx : x = o
      · cases hfs : findSplit c rest with
        | none =>
          simp only [stripDelimF, if_pos hx, hfs]
          have hnotin : c ∉ rest := findSplit_none hfs
          have hnc : hasChar c (stripDelimF o c fuel rest) = false := by
            rw [← Bool.not_eq_true]
            intro h'
            exact hnotin ((stripDelimF_sublist o c fuel rest).subset (hasChar_iff.mp h'))
          rw [noDelimB_cons, Bool.and_eq_true]
          exact ⟨by simp [hx, hnc], ih rest hr⟩
        | some ba =>
          obtain ⟨b, a⟩ := ba
          by_cases hb : b = []
          · subst hb
            obtain ⟨he, -⟩ := findSplit_some hfs
            simp only [List.nil_append] at he
            simp only [stripDelimF, if_pos hx, hfs, if_pos rfl]
            subst he
            cases fuel with
            | zero => simp at hr
            | succ fuel' =>
              have hco : ¬ (c = o) := fun hh => hoc hh.symm
              have hu : stripDelimF o c (fuel' + 1) (c :: a) =
                  c :: stripDelimF o c fuel' a := by
                simp [stripDelimF, hco]
              rw [hu]
              simp only [if_true]
              have ihr := ih (c :: a) hr
              rw [hu] at ihr
              rw [noDelimB_cons, Bool.and_eq_true]
              exact ⟨by simp [hx, headIs], ihr⟩
          · simp only [stripDelimF, if_pos hx, hfs, if_neg hb]
            obtain ⟨he, -⟩ := findSplit_some hfs
            have ha : a.length ≤ fuel := by
              rw [he] at hr; simp at hr; omega
            exact ih a ha
      · simp only [stripDelimF, if_neg hx]
        rw [noDelimB_cons, Bool.and_eq_true]
        exact ⟨by simp [hx], ih rest hr⟩

theorem stripF_id (o c : Char) :
    ∀ (fuel : Nat) (s : Str), s.length ≤ fuel → noDelimB o c s = true →
      stripDelimF o c fuel s = s := by
  intro fuel
  induction fuel with
  | zero =>
    intro s h _
    have hs : s = [] := List.length_eq_zero.mp (Nat.le_zero.mp h)
    subst hs; rfl
  | succ fuel ih =>
    intro s h hnd
    cases s with
    | nil => rfl
    | cons x rest =>
      have hr : rest.length ≤ fuel := by simp at h; omega
      rw [noDelimB_cons, Bool.and_eq_true] at hnd
      obtain ⟨h1, h2⟩ := hnd
      by_cases hx : x = o
      · rw [if_pos hx, Bool.or_eq_true] at h1
        cases h1 with
        | inl hnc =>
          have hnotin : c ∉ rest := by
            rw [Bool.not_eq_true'] at hnc
            intro hm
            rw [← hasChar_iff] at hm
            rw [hm] at hnc
            simp at hnc
          cases hfs : findSplit c rest with
          | some ba =>
            obtain ⟨b, a⟩ := ba
            obtain ⟨he, -⟩ := findSplit_some hfs
            exact absurd (by rw [he]; simp : c ∈ rest) hnotin
          | none =>
            simp only [stripDelimF, if_pos hx, hfs]
            rw [ih rest hr h2]
        | inr hhd =>
          cases rest with
          | nil => simp [headIs] at hhd
          | cons r rest' =>
            have hrc : r = c := by simpa [headIs] using hhd
            have hfs : findSplit c (r :: rest') = some ([], rest') := by
              simp [findSplit, hrc]
            simp only [stripDelimF, if_pos hx, hfs, if_pos rfl, if_true]
            rw [ih (r :: rest') hr h2]
      · simp only [stripDelimF, if_neg hx]
        rw [ih rest hr h2]

theorem noDelim_preservedF (o c o' c' : Char) (ho : o ≠ o') (hc : c ≠ o') :
    ∀ (fuel : Nat) (s : Str), s.length ≤ fuel → noDelimB o c s = true →
      noDelimB o c (stripDelimF o' c' fuel s) = true := by
  intro fuel
  induction fuel with
  | zero =>
    intro s h hnd
    have hs : s = [] := List.length_eq_zero.mp (Nat.le_zero.mp h)
    subst hs
    simp [stripDelimF, noDelimB]
  | succ fuel ih =>
    intro s h hnd
    cases s with
    | nil => simp [stripDelimF, noDelimB]
    | cons x rest =>
      have hr : rest.length ≤ fuel := by simp at h; omega
      rw [noDelimB_cons, Bool.and_eq_true] at hnd
      obtain ⟨h1, h2⟩ := hnd
      by_cases hx' : x = o'
      · have hxo : ¬ x = o := by rw [hx']; exact fun hh => ho hh.symm
        cases hfs : findSplit c' rest with
        | none =>
          simp only [stripDelimF, if_pos hx', hfs]
          rw [noDelimB_cons, Bool.and_eq_true]
          exact ⟨by simp [hxo], ih rest hr h2⟩
        | some ba =>
          obtain ⟨b, a⟩ := ba
          by_cases hb : b = []
          · simp only [stripDelimF, if_pos hx', hfs, if_pos hb]
            rw [noDelimB_cons, Bool.and_eq_true]
            exact ⟨by simp [hxo], ih rest hr h2⟩
          · simp only [stripDelimF, if_pos hx', hfs, if_neg hb]
            obtain ⟨he, -⟩ := findSplit_some hfs
            have h2a : noDelimB o c a = true := by
              rw [he, show b ++ c' :: a = (b ++ [c']) ++ a by simp] at h2
              exact noDelimB_append_right h2
            have ha : a.length ≤ fuel := by rw [he] at hr; simp at hr; omega
            exact ih a ha h2a
      · simp only [stripDelimF, if_neg hx']
        rw [noDelimB_cons, Bool.and_eq_true]
        refine ⟨?_, ih rest hr h2⟩
        by_cases hxo : x = o
        · rw [if_pos hxo]
          rw [if_pos hxo, Bool.or_eq_true] at h1
          cases h1 with
          | inl hnc =>
            rw [Bool.or_eq_true]
            left
            rw [Bool.not_eq_true'] at hnc ⊢
            exact hasChar_false_of_sublist (stripDelimF_sublist o' c' fuel rest) hnc
          | inr hhd =>
            cases rest with
            | nil => simp [headIs] at hhd
            | cons r rest' =>
              have hrc : r = c := by simpa [headIs] using hhd
              subst hrc
              cases fuel with
              | zero => simp at hr
              | succ fuel' =>
                have hu : stripDelimF o' c' (fuel' + 1) (r :: rest') =
                    r :: stripDelimF o' c' fuel' rest' := by
                  simp [stripDelimF, fun hh => hc hh]
                rw [hu, Bool.or_eq_true]
                right
                simp [headIs]
        · simp [hxo]

/-! ### Top-level stripping lemmas and idempotence -/

theorem noDelim_stripDelim (o c : Char) (hoc : o ≠ c) (s : Str) :
    noDelimB o c (stripDelim o c s) = true :=
  noDelim_stripF o c hoc s.length s (le_refl _)

theorem stripDelim_id (o c : Char) (s : Str) (h : noDelimB o c s = true) :
    stripDelim o c s = s :=
  stripF_id o c s.length s (le_refl _) h

theorem noDelim_stripDelim_other (o c o' c' : Char) (ho : o ≠ o') (hc : c ≠ o')
    (s : Str) (h : noDelimB o c s = true) :
    noDelimB o c (stripDelim o' c' s) = true :=
  noDelim_preservedF o c o' c' ho hc s.length s (le_refl _) h

/-- C7: the tag/brace stripping step of the Cue Parser and the Paragraph
Formatter is idempotent: applying the stripping function to its own output
returns that output unchanged, for every string. -/
theorem C7_strip_idempotent (s : Str) : cleanLine (cleanLine s) = cleanLine s := by
  have h1 : noDelimB '<' '>' (stripDelim '<' '>' s) = true :=
    noDelim_stripDelim '<' '>' (by decide) s
  have h2 : noDelimB '<' '>' (cleanLine s) = true :=
    noDelim_stripDelim_other '<' '>' '{' '}' (by decide) (by decide) _ h1
  have h3 : noDelimB '{' '}' (cleanLine s) = true :=
    noDelim_stripDelim '{' '}' (by decide) (stripDelim '<' '>' s)
  show stripDelim '{' '}' (stripDelim '<' '>' (cleanLine s)) = cleanLine s
  rw [stripDelim_id '<' '>' (cleanLine s) h2]
  exact stripDelim_id '{' '}' (cleanLine s) h3

/-! ### Grouping lemmas -/

theorem goGroup_eq_map (k : Nat) :
    ∀ (l acc : List Str), goGroup k acc l = (chunksAux k acc l).map joinSp := by
  intro l
  induction l with
  | nil => intro acc; rfl
  | cons x rest ih =>
    intro acc
    simp only [goGroup, chunksAux]
    split
    · simp [ih]
    · exact ih _

theorem chunksExact_nil (k : Nat) : chunksExact k ([] : List α) = [] := by
  simp [chunksExact]

theorem chunksExact_cons (k : Nat) (x : α) (rest : List α) :
    chunksExact k (x :: rest) =
      (x :: rest.take (k - 1)) :: chunksExact k (rest.drop (k - 1)) := by
  simp [chunksExact]

theorem chunksExact_of_short {k : Nat} {l : List α} (hne : l ≠ []) (hlen : l.length ≤ k) :
    chunksExact k l = [l] := by
  cases l with
  | nil => exact absurd rfl hne
  | cons x rest =>
    rw [chunksExact_cons]
    have h1 : rest.take (k - 1) = rest := List.take_of_length_le (by simp at hlen; omega)
    have h2 : rest.drop (k - 1) = [] := List.drop_of_length_le (by simp at hlen; omega)
    rw [h1, h2, chunksExact_nil]

theorem chunksExact_append_left {k : Nat} {l₁ : List α} (l₂ : List α)
    (hlen : l₁.length = k) (hk : 1 ≤ k) :
    chunksExact k (l₁ ++ l₂) = l₁ :: chunksExact k l₂ := by
  cases l₁ with
  | nil => simp at hlen; omega
  | cons y t =>
    rw [List.cons_append, chunksExact_cons]
    have ht : t.length = k - 1 := by simp at hlen; omega
    have h1 : (t ++ l₂).take (k - 1) = t := by
      rw [← ht]; exact List.take_left t l₂
    have h2 : (t ++ l₂).drop (k - 1) = l₂ := by
      rw [← ht]; exact List.drop_left t l₂
    rw [h1, h2]

theorem chunksAux_eq {k : Nat} (hk : 1 ≤ k) :
    ∀ (l acc : List α), acc.length < k →
      chunksAux k acc l = if l.isEmpty then [] else chunksExact k (acc ++ l) := by
  intro l
  induction l with
  | nil => intro acc _; rfl
  | cons x rest ih =>
    intro acc hacc
    by_cases hkk : k ≤ (acc ++ [x]).length
    · have hlen : (acc ++ [x]).length = k := by
        simp only [List.length_append, List.length_cons, List.length_nil] at hkk hacc ⊢
        omega
      have hstep : chunksAux k acc (x :: rest) = (acc ++ [x]) :: chunksAux k [] rest := by
        simp only [chunksAux]
        rw [if_pos (by simp only [List.length_append, List.length_cons, List.length_nil] at hkk; simp; omega)]
      rw [hstep, ih [] (by simp only [List.length_nil]; omega)]
      have hrw : acc ++ x :: rest = (acc ++ [x]) ++ rest := by simp
      rw [hrw, chunksExact_append_left rest hlen hk]
      cases rest with
      | nil => simp [chunksExact_nil]
      | cons y ys => simp
    · by_cases hres : rest = []
      · subst hres
        have hstep : chunksAux k acc [x] = (acc ++ [x]) :: chunksAux k [] [] := by
          simp only [chunksAux]
          rw [if_pos (by simp)]
        rw [hstep]
        have hshort : chunksExact k (acc ++ [x]) = [acc ++ [x]] :=
          chunksExact_of_short (by simp) (by omega)
        simp [hshort, chunksAux]
      · have hstep : chunksAux k acc (x :: rest) = chunksAux k (acc ++ [x]) rest := by
          simp only [chunksAux]
          rw [if_neg (by
            simp only [List.length_append, List.length_cons, List.length_nil] at hkk
            simp [hres]
            omega)]
        rw [hstep, ih (acc ++ [x]) (by simp only [List.length_append, List.length_cons, List.length_nil] at hkk ⊢; omega)]
        have hne : rest.isEmpty = false := by
          cases rest with
          | nil => exact absurd rfl hres
          | cons => rfl
        simp [hne, hres]

theorem groupSegs_eq_chunksExact {k : Nat} (hk : 1 ≤ k) (l : List Str) :
    groupSegs k l = (chunksExact k l).map joinSp := by
  unfold groupSegs
  rw [goGroup_eq_map]
  congr 1
  rw [chunksAux_eq hk l [] (by simp only [List.length_nil]; omega)]
  cases l with
  | nil => simp [chunksExact_nil]
  | cons => rfl

theorem chunksExact_length {k : Nat} (hk : 1 ≤ k) :
    ∀ (n : Nat) (l : List α), l.length = n → l ≠ [] →
      (chunksExact k l).length = (l.length + k - 1) / k := by
  intro n
  induction n using Nat.strong_induction_on with
  | _ n ih =>
    intro l hn hne
    cases l with
    | nil => exact absurd rfl hne
    | cons x rest =>
      rw [chunksExact_cons]
      by_cases hshort : rest.length ≤ k - 1
      · have hdrop : rest.drop (k - 1) = [] := List.drop_of_length_le hshort
        rw [hdrop, chunksExact_nil]
        simp only [List.length_cons, List.length_nil]
        have h1 : rest.length + 1 + k - 1 = rest.length + k := by omega
        rw [h1, Nat.add_div_right _ (by omega : 0 < k),
          Nat.div_eq_of_lt (by omega : rest.length < k)]
      · push_neg at hshort
        have hdlen : (rest.drop (k - 1)).length = rest.length - (k - 1) := by simp
        have hlt : (rest.drop (k - 1)).length < n := by
          subst hn; simp only [hdlen, List.length_cons]; omega
        have hdne : rest.drop (k - 1) ≠ [] := by
          intro hd
          rw [hd] at hdlen
          simp at hdlen
          omega
        rw [List.length_cons, ih _ hlt (rest.drop (k - 1)) rfl hdne, hdlen,
          List.length_cons]
        have h2 : rest.length + 1 + k - 1 = (rest.length - (k - 1) + k - 1) + k := by
          omega
        rw [h2, Nat.add_div_right _ (by omega : 0 < k)]

theorem chunksExact_join {k : Nat} (hk : 1 ≤ k) :
    ∀ (n : Nat) (l : List α), l.length = n → (chunksExact k l).flatten = l := by
  intro n
  induction n using Nat.strong_induction_on with
  | _ n ih =>
    intro l hn
    cases l with
    | nil => simp [chunksExact_nil]
    | cons x rest =>
      rw [chunksExact_cons]
      simp only [List.flatten_cons]
      have hlt : (rest.drop (k - 1)).length < n := by
        subst hn; simp only [List.length_drop, List.length_cons]; omega
      rw [ih _ hlt (rest.drop (k - 1)) rfl, List.cons_append, List.take_append_drop]

theorem chunksExact_eq_nil_iff {k : Nat} {l : List α} :
    chunksExact k l = [] ↔ l = [] := by
  cases l with
  | nil => simp [chunksExact_nil]
  | cons x rest => rw [chunksExact_cons]; simp

theorem chunksExact_mem_ne_nil {k : Nat} :
    ∀ (n : Nat) (l : List α), l.length = n → ∀ ch ∈ chunksExact k l, ch ≠ [] := by
  intro n
  induction n using Nat.strong_induction_on with
  | _ n ih =>
    intro l hn ch hch
    cases l with
    | nil => rw [chunksExact_nil] at hch; simp at hch
    | cons x rest =>
      rw [chunksExact_cons] at hch
      rcases List.mem_cons.mp hch with h | h
      · subst h; simp
      · have hlt : (rest.drop (k - 1)).length < n := by
          subst hn; simp only [List.length_drop, List.length_cons]; omega
        exact ih _ hlt (rest.drop (k - 1)) rfl ch h

theorem chunksExact_mem_mem {k : Nat} (hk : 1 ≤ k) {l : List α} {ch : List α}
    (hch : ch ∈ chunksExact k l) {e : α} (he : e ∈ ch) : e ∈ l := by
  rw [← chunksExact_join hk l.length l rfl]
  exact List.mem_flatten.mpr ⟨ch, hch, he⟩

theorem chunksExact_dropLast_length {k : Nat} (hk : 1 ≤ k) :
    ∀ (n : Nat) (l : List α), l.length = n →
      ∀ ch ∈ (chunksExact k l).dropLast, ch.length = k := by
  intro n
  induction n using Nat.strong_induction_on with
  | _ n ih =>
    intro l hn ch hch
    cases l with
    | nil => rw [chunksExact_nil] at hch; simp at hch
    | cons x rest =>
      rw [chunksExact_cons] at hch
      by_cases hcs : chunksExact k (rest.drop (k - 1)) = []
      · rw [hcs] at hch
        simp at hch
      · obtain ⟨y, ys, hys⟩ := List.exists_cons_of_ne_nil hcs
        rw [hys] at hch
        rw [List.dropLast_cons₂] at hch
        have hdne : rest.drop (k - 1) ≠ [] := fun hd => hcs (by rw [hd, chunksExact_nil])
        have hklt : k - 1 < rest.length := by
          by_contra hcon
          push_neg at hcon
          exact hdne (List.drop_of_length_le hcon)
        rcases List.mem_cons.mp hch with h | h
        · subst h
          simp only [List.length_cons, List.length_take]
          omega
        · have hlt : (rest.drop (k - 1)).length < n := by
            subst hn; simp only [List.length_drop, List.length_cons]; omega
          have := ih _ hlt (rest.drop (k - 1)) rfl ch
          exact this (by rw [hys]; exact h)

/-! ### Whitespace trimming lemmas -/

theorem dropWhile_head_false {p : Char → Bool} :
    ∀ {l : Str} {a : Char}, (l.dropWhile p).head? = some a → p a = false := by
  intro l
  induction l with
  | nil => intro a h; simp at h
  | cons x rest ih =>
    intro a h
    rw [List.dropWhile_cons] at h
    by_cases hx : p x = true
    · rw [if_pos hx] at h; exact ih h
    · rw [if_neg hx] at h
      have hxa : x = a := by simpa using h
      subst hxa
      exact Bool.not_eq_true _ ▸ eq_false_of_ne_true hx

theorem dropWhile_eq_self {p : Char → Bool} {l : Str}
    (h : ∀ a, l.head? = some a → p a = false) : l.dropWhile p = l := by
  cases l with
  | nil => rfl
  | cons x rest =>
    rw [List.dropWhile_cons, if_neg (by simp [h x rfl])]

theorem pstrip_head_ws {l : Str} {a : Char} (h : (pstrip l).head? = some a) :
    isWs a = false :=
  dropWhile_head_false h

theorem pstrip_getLast_ws {l : Str} {a : Char} (h : (pstrip l).getLast? = some a) :
    isWs a = false := by
  have hsuf : (rstripChars l).dropWhile isWs <:+ rstripChars l :=
    List.dropWhile_suffix isWs
  obtain ⟨t, ht⟩ := hsuf
  have h1 : (rstripChars l).getLast? = some a := by
    rw [← ht, List.getLast?_append]
    unfold pstrip at h
    rw [h, Option.or_some]
  unfold rstripChars at h1
  rw [List.getLast?_reverse] at h1
  exact dropWhile_head_false h1

theorem pstrip_eq_self {l : Str}
    (h1 : ∀ a, l.head? = some a → isWs a = false)
    (h2 : ∀ a, l.getLast? = some a → isWs a = false) : pstrip l = l := by
  unfold pstrip rstripChars
  have hrev : l.reverse.dropWhile isWs = l.reverse := by
    apply dropWhile_eq_self
    intro a ha
    rw [List.head?_reverse] at ha
    exact h2 a ha
  rw [hrev, List.reverse_reverse]
  exact dropWhile_eq_self h1

theorem pstrip_idem (l : Str) : pstrip (pstrip l) = pstrip l :=
  pstrip_eq_self (fun _ ha => pstrip_head_ws ha) (fun _ ha => pstrip_getLast_ws ha)

theorem pstrip_sublist (l : Str) : (pstrip l).Sublist l := by
  unfold pstrip rstripChars
  have h2 : ((l.reverse.dropWhile isWs).reverse).Sublist l := by
    have := (List.dropWhile_sublist (l := l.reverse) isWs).reverse
    rwa [List.reverse_reverse] at this
  exact (List.dropWhile_sublist isWs).trans h2

theorem cleanLine_sublist (l : Str) : (cleanLine l).Sublist l :=
  (stripDelimF_sublist _ _ _ _).trans (stripDelimF_sublist _ _ _ _)

/-! ### Join lemmas -/

theorem joinWith_cons_cons (sep x y : Str) (rest : List Str) :
    joinWith sep (x :: y :: rest) = x ++ sep ++ joinWith sep (y :: rest) := rfl

theorem joinWith_ne_nil {sep : Str} {gs : List Str} (hne : gs ≠ [])
    (hall : ∀ g ∈ gs, g ≠ []) : joinWith sep gs ≠ [] := by
  cases gs with
  | nil => exact absurd rfl hne
  | cons g rest =>
    cases rest with
    | nil => exact hall g (List.mem_cons_self _ _)
    | cons y ys =>
      rw [joinWith_cons_cons, List.append_assoc]
      intro hx
      exact hall g (List.mem_cons_self _ _) (List.append_eq_nil.mp hx).1

theorem joinWith_head? {sep : Str} {gs : List Str} {g : Str}
    (h : gs.head? = some g) (hg : g ≠ []) :
    (joinWith sep gs).head? = g.head? := by
  cases gs with
  | nil => simp at h
  | cons g0 rest =>
    have hg0 : g0 = g := by simpa using h
    subst hg0
    cases rest with
    | nil => rfl
    | cons y ys =>
      rw [joinWith_cons_cons, List.append_assoc, List.head?_append_of_ne_nil _ hg]

theorem joinWith_getLast? {sep : Str} :
    ∀ {gs : List Str} {gl : Str}, gs.getLast? = some gl → (∀ g ∈ gs, g ≠ []) →
      (joinWith sep gs).getLast? = gl.getLast? := by
  intro gs
  induction gs with
  | nil => intro gl h _; simp at h
  | cons g rest ih =>
    intro gl h hall
    cases rest with
    | nil =>
      have hgl : g = gl := by simpa using h
      subst hgl; rfl
    | cons y ys =>
      have hlast : (y :: ys).getLast? = some gl := by
        rw [← List.getLast?_cons_cons (a := g)]; exact h
      have hally : ∀ g' ∈ y :: ys, g' ≠ [] :=
        fun g' hg' => hall g' (List.mem_cons_of_mem _ hg')
      have hJne : joinWith sep (y :: ys) ≠ [] :=
        joinWith_ne_nil (by simp) hally
      rw [joinWith_cons_cons, List.getLast?_append, List.getLast?_append,
        ih hlast hally]
      have hglne : gl ≠ [] := hally gl (List.mem_of_mem_getLast? hlast)
      obtain ⟨a, ha⟩ := Option.isSome_iff_exists.mp (List.getLast?_isSome.mpr hglne)
      rw [ha]
      simp

theorem joinSp_append {a b : List Str} (ha : a ≠ []) (hb : b ≠ []) :
    joinSp (a ++ b) = joinSp a ++ ' ' :: joinSp b := by
  induction a with
  | nil => exact absurd rfl ha
  | cons x t ih =>
    cases t with
    | nil =>
      obtain ⟨y, ys, rfl⟩ := List.exists_cons_of_ne_nil hb
      show joinSp (x :: y :: ys) = joinSp [x] ++ ' ' :: joinSp (y :: ys)
      rw [show joinSp [x] = x from rfl]
      unfold joinSp
      rw [joinWith_cons_cons, List.append_assoc]
      rfl
    | cons z t' =>
      have h1 : joinSp (x :: ((z :: t') ++ b)) =
          x ++ [' '] ++ joinSp ((z :: t') ++ b) := by
        rw [List.cons_append (a := z)]
        exact joinWith_cons_cons _ _ _ _
      rw [List.cons_append, h1, ih (by simp)]
      unfold joinSp
      rw [joinWith_cons_cons]
      simp [List.append_assoc]

theorem joinSp_flatten {chs : List (List Str)} (hne : ∀ ch ∈ chs, ch ≠ []) :
    joinWith [' '] (chs.map joinSp) = joinSp chs.flatten := by
  induction chs with
  | nil => rfl
  | cons ch rest ih =>
    cases rest with
    | nil => simp [joinSp, joinWith]
    | cons y ys =>
      have hraw : ∀ c ∈ y :: ys, c ≠ [] :=
        fun c hc => hne c (List.mem_cons_of_mem _ hc)
      have hflat : (y :: ys).flatten ≠ [] := by
        rw [List.flatten_ne_nil_iff]
        exact ⟨y, List.mem_cons_self _ _, hraw y (List.mem_cons_self _ _)⟩
      have hstep : joinWith [' '] (List.map joinSp (ch :: y :: ys)) =
          joinSp ch ++ [' '] ++ joinWith [' '] (List.map joinSp (y :: ys)) := by
        rw [List.map_cons, List.map_cons]
        exact joinWith_cons_cons _ _ _ _
      rw [hstep, ih hraw]
      conv_rhs => rw [List.flatten_cons]
      rw [joinSp_append (hne ch (List.mem_cons_self _ _)) hflat]
      simp [List.append_assoc]

/-! ### `replaceNlNl` lemmas -/

theorem replaceNlNl_cons_ne {c : Char} (hc : c ≠ '\n') (rest : Str) :
    replaceNlNl (c :: rest) = c :: replaceNlNl rest := by
  cases rest with
  | nil => simp [replaceNlNl, hc]
  | cons d rest' => simp [replaceNlNl, hc]

theorem replaceNlNl_no_nl : ∀ {g : Str}, '\n' ∉ g → replaceNlNl g = g := by
  intro g
  induction g with
  | nil => intro _; rfl
  | cons c rest ih =>
    intro h
    have hc : c ≠ '\n' := fun hh => h (by simp [hh])
    have hr : '\n' ∉ rest := fun hh => h (List.mem_cons_of_mem _ hh)
    rw [replaceNlNl_cons_ne hc, ih hr]

theorem replaceNlNl_sep : ∀ {g : Str}, '\n' ∉ g → ∀ (b : Str),
    replaceNlNl (g ++ '\n' :: '\n' :: b) = g ++ ' ' :: replaceNlNl b := by
  intro g
  induction g with
  | nil => intro _ b; simp [replaceNlNl]
  | cons c rest ih =>
    intro h b
    have hc : c ≠ '\n' := fun hh => h (by simp [hh])
    have hr : '\n' ∉ rest := fun hh => h (List.mem_cons_of_mem _ hh)
    rw [List.cons_append, replaceNlNl_cons_ne hc, ih hr]
    rfl

theorem replace_joinBlank {gs : List Str} (hnl : ∀ g ∈ gs, '\n' ∉ g) :
    replaceNlNl (joinBlank gs) = joinWith [' '] gs := by
  induction gs with
  | nil => rfl
  | cons g rest ih =>
    cases rest with
    | nil => exact replaceNlNl_no_nl (hnl g (List.mem_cons_self _ _))
    | cons y ys =>
      unfold joinBlank
      rw [joinWith_cons_cons, List.append_assoc,
        show (['\n', '\n'] : Str) ++ joinWith ['\n', '\n'] (y :: ys) =
          '\n' :: '\n' :: joinWith ['\n', '\n'] (y :: ys) from rfl,
        replaceNlNl_sep (hnl g (List.mem_cons_self _ _))]
      have ihy := ih (fun g' h' => hnl g' (List.mem_cons_of_mem _ h'))
      unfold joinBlank at ihy
      rw [ihy, joinWith_cons_cons]
      simp [List.append_assoc]

/-! ### Segment extraction lemmas -/

theorem splitOnChar_not_mem {sep : Char} :
    ∀ {s : Str} {g : Str}, g ∈ splitOnChar sep s → sep ∉ g := by
  intro s
  induction s with
  | nil =>
    intro g hg
    simp only [splitOnChar, List.mem_singleton] at hg
    subst hg; simp
  | cons c rest ih =>
    intro g hg
    by_cases hc : c = sep
    · simp only [splitOnChar, if_pos hc] at hg
      rcases List.mem_cons.mp hg with h | h
      · subst h; simp
      · exact ih h
    · simp only [splitOnChar, if_neg hc] at hg
      cases hsp : splitOnChar sep rest with
      | nil =>
        rw [hsp] at hg
        simp only [List.mem_singleton] at hg
        subst hg
        simp only [List.mem_singleton]
        exact fun hh => hc hh.symm
      | cons g0 gs =>
        rw [hsp] at hg
        rcases List.mem_cons.mp hg with h | h
        · subst h
          have hg0 : sep ∉ g0 := ih (by rw [hsp]; exact List.mem_cons_self _ _)
          simp only [List.mem_cons, not_or]
          exact ⟨fun hh => hc hh.symm, hg0⟩
        · exact ih (by rw [hsp]; exact List.mem_cons_of_mem _ h)

theorem splitlines_not_nl {s : Str} {g : Str} (h : g ∈ splitlines s) : '\n' ∉ g := by
  unfold splitlines at h
  split at h
  · simp at h
  · split at h
    · exact splitOnChar_not_mem ((List.dropLast_sublist _).subset h)
    · exact splitOnChar_not_mem h

theorem extractSegments_mem {content : Str} {s : Str} (h : s ∈ extractSegments content) :
    ∃ l ∈ splitlines (pstrip content), s = pstrip (cleanLine (pstrip l)) := by
  unfold extractSegments at h
  rw [List.mem_filterMap] at h
  obtain ⟨a, ha, hfa⟩ := h
  refine ⟨a, ha, ?_⟩
  simp only at hfa
  split at hfa
  · exact absurd hfa (by simp)
  · split at hfa
    · exact absurd hfa (by simp)
    · simpa using hfa.symm

theorem extractSegments_pstripped {content : Str} {s : Str}
    (h : s ∈ extractSegments content) : pstrip s = s := by
  obtain ⟨l, -, rfl⟩ := extractSegments_mem h
  exact pstrip_idem _

theorem extractSegments_not_nl {content : Str} {s : Str}
    (h : s ∈ extractSegments content) : '\n' ∉ s := by
  obtain ⟨l, hl, rfl⟩ := extractSegments_mem h
  intro hmem
  have h1 : '\n' ∈ cleanLine (pstrip l) := (pstrip_sublist _).subset hmem
  have h2 : '\n' ∈ pstrip l := (cleanLine_sublist _).subset h1
  have h3 : '\n' ∈ l := (pstrip_sublist _).subset h2
  exact splitlines_not_nl hl h3

theorem mem_joinWith {sep : Str} :
    ∀ {gs : List Str} {a : Char}, a ∈ joinWith sep gs → a ∈ sep ∨ ∃ g ∈ gs, a ∈ g := by
  intro gs
  induction gs with
  | nil => intro a h; simp [joinWith] at h
  | cons g rest ih =>
    intro a h
    cases rest with
    | nil => exact Or.inr ⟨g, List.mem_cons_self _ _, h⟩
    | cons y ys =>
      rw [joinWith_cons_cons] at h
      rcases List.mem_append.mp h with h1 | h2
      · rcases List.mem_append.mp h1 with h3 | h4
        · exact Or.inr ⟨g, List.mem_cons_self _ _, h3⟩
        · exact Or.inl h4
      · rcases ih h2 with h5 | ⟨g', hg', ha⟩
        · exact Or.inl h5
        · exact Or.inr ⟨g', List.mem_cons_of_mem _ hg', ha⟩

/-- Unfolding of the Paragraph Formatter as a three-way case split. -/
theorem format_eq (tok : Str → List Str) (content : Str) (spp lpf : Nat) :
    format_transcript_into_paragraphs tok content spp lpf =
      (if (extractSegments content).isEmpty then couldNotExtractMsg
       else if max 5 ((extractSegments content).length / 10) <
           (tok (joinSp (extractSegments content))).length then
         pstrip (joinBlank (groupSegs spp (tok (joinSp (extractSegments content)))))
       else pstrip (joinBlank (groupSegs lpf (extractSegments content)))) := by
  simp only [format_transcript_into_paragraphs]
  split
  · rfl
  · exact apply_ite (fun out => pstrip (joinBlank out)) _ _ _

/-- Trimming the blank-line join of the groups is the identity when every
group consists of nonempty already-trimmed segments. -/
theorem pstrip_joinBlank_groups {chs : List (List Str)}
    (hchsne : chs ≠ [])
    (hchne : ∀ ch ∈ chs, ch ≠ [])
    (helem : ∀ ch ∈ chs, ∀ e ∈ ch, e ≠ [] ∧ pstrip e = e) :
    pstrip (joinBlank (chs.map joinSp)) = joinBlank (chs.map joinSp) := by
  have hgne : ∀ g ∈ chs.map joinSp, g ≠ [] := by
    intro g hg
    rw [List.mem_map] at hg
    obtain ⟨ch, hch, rfl⟩ := hg
    exact joinWith_ne_nil (hchne ch hch) (fun e he => (helem ch hch e he).1)
  have hgsne : chs.map joinSp ≠ [] := by
    intro hh
    exact hchsne (List.map_eq_nil_iff.mp hh)
  apply pstrip_eq_self
  · intro a ha
    simp only [joinBlank] at ha
    obtain ⟨g0, gs', hgs⟩ := List.exists_cons_of_ne_nil hgsne
    rw [hgs] at ha
    have hg0mem : g0 ∈ chs.map joinSp := by rw [hgs]; exact List.mem_cons_self _ _
    have hg0ne : g0 ≠ [] := hgne g0 hg0mem
    rw [@joinWith_head? ['\n', '\n'] (g0 :: gs') g0 rfl hg0ne] at ha
    have hex : ∃ ch0 ∈ chs, g0 = joinSp ch0 := by
      have hmm := hg0mem
      rw [List.mem_map] at hmm
      obtain ⟨ch0, hch0, he⟩ := hmm
      exact ⟨ch0, hch0, he.symm⟩
    obtain ⟨ch0, hch0, rfl⟩ := hex
    obtain ⟨s0, ss, hs0⟩ := List.exists_cons_of_ne_nil (hchne ch0 hch0)
    have hs0mem : s0 ∈ ch0 := by rw [hs0]; exact List.mem_cons_self _ _
    obtain ⟨hs0ne, hs0p⟩ := helem ch0 hch0 s0 hs0mem
    rw [hs0] at ha
    simp only [joinSp] at ha
    rw [@joinWith_head? [' '] (s0 :: ss) s0 rfl hs0ne] at ha
    rw [← hs0p] at ha
    exact pstrip_head_ws ha
  · intro a ha
    simp only [joinBlank] at ha
    obtain ⟨gl, hgl⟩ := Option.isSome_iff_exists.mp (List.getLast?_isSome.mpr hgsne)
    have hglmem : gl ∈ chs.map joinSp := List.mem_of_mem_getLast? hgl
    rw [joinWith_getLast? hgl hgne] at ha
    have hex : ∃ chl ∈ chs, gl = joinSp chl := by
      have hmm := hglmem
      rw [List.mem_map] at hmm
      obtain ⟨chl, hchl, he⟩ := hmm
      exact ⟨chl, hchl, he.symm⟩
    obtain ⟨chl, hchl, rfl⟩ := hex
    obtain ⟨sl, hsl⟩ := Option.isSome_iff_exists.mp
      (List.getLast?_isSome.mpr (hchne chl hchl))
    have hslmem : sl ∈ chl := List.mem_of_mem_getLast? hsl
    obtain ⟨hslne, hslp⟩ := helem chl hchl sl hslmem
    simp only [joinSp] at ha
    rw [joinWith_getLast? hsl (fun e he => (helem chl hchl e he).1)] at ha
    rw [← hslp] at ha
    exact pstrip_getLast_ws ha

/-- C10 counterexample: for the markup `"<a> <b>\nhello"` the extracted
segment sequence is nonempty (it is `["", "hello"]`: the first line strips to
a single space, which re-strips to the empty segment), the empty sentence
list puts the formatter in fallback line-grouping mode, and replacing the
blank-line separators of the output by single spaces yields `"hello"`, not
the single-space join `" hello"` of the segments: the formatter's final trim
drops the leading space, so the claimed exact equality fails. -/
theorem C10_counterexample :
    extractSegments ("<a> <b>\nhello".toList) ≠ [] ∧
    ¬ (max 5 ((extractSegments ("<a> <b>\nhello".toList)).length / 10) <
        ((fun (_ : Str) => ([] : List Str))
          (joinSp (extractSegments ("<a> <b>\nhello".toList)))).length) ∧
    replaceNlNl (format_transcript_into_paragraphs (fun _ => [])
        ("<a> <b>\nhello".toList) 5 8) ≠
      joinSp (extractSegments ("<a> <b>\nhello".toList)) :=
  ⟨by decide, by decide, by decide⟩

/-- C10 (amended): in fallback line-grouping mode (nonempty extracted
segment list and sentence count not exceeding the threshold), provided
additionally that every extracted segment is non-empty, the Paragraph
Formatter loses, duplicates and reorders nothing: replacing every blank-line
paragraph separator of its output by a single space yields exactly the
single-space join of the extracted segment sequence. -/
theorem C10_fallback_preserves_segments (tok : Str → List Str) (content : Str)
    (hseg : extractSegments content ≠ [])
    (hne : ∀ s ∈ extractSegments content, s ≠ [])
    (hm : ¬ (max 5 ((extractSegments content).length / 10) <
        (tok (joinSp (extractSegments content))).length)) :
    replaceNlNl (format_transcript_into_paragraphs tok content 5 8) =
      joinSp (extractSegments content) := by
  have h8 : (1 : Nat) ≤ 8 := by omega
  rw [format_eq]
  rw [if_neg (by simpa using hseg), if_neg hm,
    groupSegs_eq_chunksExact h8]
  have hchsne : chunksExact 8 (extractSegments content) ≠ [] :=
    fun hh => hseg (chunksExact_eq_nil_iff.mp hh)
  have hchne : ∀ ch ∈ chunksExact 8 (extractSegments content), ch ≠ [] :=
    fun ch hch =>
      chunksExact_mem_ne_nil (extractSegments content).length _ rfl ch hch
  have hmem : ∀ ch ∈ chunksExact 8 (extractSegments content),
      ∀ e ∈ ch, e ∈ extractSegments content :=
    fun ch hch e he => chunksExact_mem_mem h8 hch he
  have helem : ∀ ch ∈ chunksExact 8 (extractSegments content),
      ∀ e ∈ ch, e ≠ [] ∧ pstrip e = e :=
    fun ch hch e he =>
      ⟨hne e (hmem ch hch e he), extractSegments_pstripped (hmem ch hch e he)⟩
  rw [pstrip_joinBlank_groups hchsne hchne helem]
  have hgnl : ∀ g ∈ (chunksExact 8 (extractSegments content)).map joinSp,
      '\n' ∉ g := by
    intro g hg
    rw [List.mem_map] at hg
    obtain ⟨ch, hch, rfl⟩ := hg
    intro hnl
    simp only [joinSp] at hnl
    rcases mem_joinWith hnl with h1 | ⟨e, he, h2⟩
    · simp at h1
    · exact extractSegments_not_nl (hmem ch hch e he) h2
  rw [replace_joinBlank hgnl, joinSp_flatten hchne,
    chunksExact_join h8 (extractSegments content).length _ rfl]

/-- Witness for C10 at the markup `"hello\nworld"` with an empty sentence
tokenization. -/
theorem C10_fallback_preserves_segments_witness :
    extractSegments ("hello\nworld".toList) ≠ [] ∧
    (∀ s ∈ extractSegments ("hello\nworld".toList), s ≠ []) ∧
    replaceNlNl (format_transcript_into_paragraphs (fun _ => [])
        ("hello\nworld".toList) 5 8) =
      joinSp (extractSegments ("hello\nworld".toList)) :=
  ⟨by decide, by decide,
    C10_fallback_preserves_segments (fun _ => []) ("hello\nworld".toList)
      (by decide) (by decide) (by decide)⟩

/-- C3: for every markup with a nonempty extracted segment list under a
(successful) sentence tokenization `tok`, the Paragraph Formatter computes
the threshold `max 5 (segment_count / 10)` with integer division; if the
sentence count exceeds the threshold it partitions the sentence sequence
into consecutive groups of exactly 5 sentences (the final group possibly
shorter), otherwise it partitions the segment sequence into consecutive
groups of exactly 8 segments (the final group possibly shorter, giving
`ceil(segment_count / 8)` paragraphs); each group is joined with single
spaces and the paragraph strings are joined with one blank line between
them (the final string being trimmed). -/
theorem C3_paragraph_grouping (tok : Str → List Str) (content : Str)
    (hseg : extractSegments content ≠ []) :
    (format_transcript_into_paragraphs tok content 5 8 =
      if max 5 ((extractSegments content).length / 10) <
          (tok (joinSp (extractSegments content))).length then
        pstrip (joinBlank
          ((chunksExact 5 (tok (joinSp (extractSegments content)))).map joinSp))
      else
        pstrip (joinBlank ((chunksExact 8 (extractSegments content)).map joinSp)))
    ∧ (chunksExact 5 (tok (joinSp (extractSegments content)))).flatten =
        tok (joinSp (extractSegments content))
    ∧ (chunksExact 8 (extractSegments content)).flatten = extractSegments content
    ∧ (∀ ch ∈ (chunksExact 5 (tok (joinSp (extractSegments content)))).dropLast,
        ch.length = 5)
    ∧ (∀ ch ∈ (chunksExact 8 (extractSegments content)).dropLast, ch.length = 8)
    ∧ (chunksExact 8 (extractSegments content)).length =
        ((extractSegments content).length + 8 - 1) / 8 := by
  refine ⟨?_, ?_, ?_, ?_, ?_, ?_⟩
  · rw [format_eq, if_neg (by simpa using hseg),
      groupSegs_eq_chunksExact (by omega : (1 : Nat) ≤ 5),
      groupSegs_eq_chunksExact (by omega : (1 : Nat) ≤ 8)]
  · exact chunksExact_join (by omega) _ _ rfl
  · exact chunksExact_join (by omega) _ _ rfl
  · exact fun ch hch => chunksExact_dropLast_length (by omega) _ _ rfl ch hch
  · exact fun ch hch => chunksExact_dropLast_length (by omega) _ _ rfl ch hch
  · exact chunksExact_length (by omega) _ _ rfl hseg

/-- Witness for C3 at the markup `"hello world"` with an empty sentence
tokenization (fallback mode). -/
theorem C3_paragraph_grouping_witness :
    extractSegments ("hello world".toList) ≠ [] ∧
    format_transcript_into_paragraphs (fun _ => []) ("hello world".toList) 5 8 =
      (if max 5 ((extractSegments ("hello world".toList)).length / 10) <
          ((fun (_ : Str) => ([] : List Str))
            (joinSp (extractSegments ("hello world".toList)))).length then
        pstrip (joinBlank ((chunksExact 5 ((fun (_ : Str) => ([] : List Str))
          (joinSp (extractSegments ("hello world".toList))))).map joinSp))
      else
        pstrip (joinBlank
          ((chunksExact 8 (extractSegments ("hello world".toList))).map joinSp))) :=
  ⟨by decide,
    (C3_paragraph_grouping (fun _ => []) ("hello world".toList) (by decide)).1⟩

/-- C8: for every markup from which no qualifying text segment can be
extracted, the Paragraph Formatter returns the descriptive message
`"Could not extract text content for formatting."` as a normal return value
(the embedding is a total function: no exception is possible). -/
theorem C8_empty_segments_message (tok : Str → List Str) (content : Str)
    (spp lpf : Nat) (h : extractSegments content = []) :
    format_transcript_into_paragraphs tok content spp lpf = couldNotExtractMsg := by
  rw [format_eq, if_pos (by simp [h])]

/-- Witness for C8 at the empty markup. -/
theorem C8_empty_segments_message_witness :
    extractSegments ([] : Str) = [] ∧
    format_transcript_into_paragraphs (fun _ => []) ([] : Str) 5 8 =
      couldNotExtractMsg :=
  ⟨by decide, C8_empty_segments_message (fun _ => []) [] 5 8 (by decide)⟩

/-- C1 counterexample: a cue whose time-range line is followed by two
consecutive non-blank text lines `"foo"` and `"bar"`.  The claim says both
lines are accumulated into the output, but the renderer resets the pending
timestamp after the first text line, so `"bar"` is dropped: the output is
exactly the marker followed by `"foo"` and contains no occurrence of
`"bar"`. -/
theorem C1_counterexample :
    parse_vtt_with_timestamps
        ("00:00:01.000 --> 00:00:03.000\nfoo\nbar".toList) =
      "[00:00:01.000 --> 00:00:03.000]\nfoo".toList ∧
    hasSubstr ("bar".toList)
      (parse_vtt_with_timestamps
        ("00:00:01.000 --> 00:00:03.000\nfoo\nbar".toList)) = false :=
  ⟨by decide, by decide⟩

/-- C1 (amended): when a time-range line is followed by two or more
consecutive non-blank, non-header, non-time-range text lines, the Cue Parser
appends the timestamp marker and only the FIRST stripped text line (followed
by the readability blank); the second text line is skipped entirely, because
the pending timestamp is reset after the first text line. -/
theorem C1_first_line_only (ts t1 t2 : Str) (rest : List Str) (cur : Str)
    (h1 : isHeaderLine (pstrip ts) = false) (h2 : hasArrow (pstrip ts) = true)
    (h3 : pstrip t1 ≠ []) (h4 : hasArrow (pstrip t1) = false)
    (h5 : isHeaderLine (pstrip t1) = false)
    (h6 : pstrip t2 ≠ []) (h7 : hasArrow (pstrip t2) = false)
    (h8 : isHeaderLine (pstrip t2) = false) :
    parseLoop (ts :: t1 :: t2 :: rest) cur =
      tsMarker (pstrip ts) :: cleanLine (pstrip t1) :: [] :: parseLoop rest [] := by
  have hms : tsMarker (pstrip ts) ≠ [] := by simp [tsMarker]
  simp [parseLoop, h1, h2, h3, h4, h5, h6, h7, h8, hms]

/-- Witness for C1 (amended) at the cue
`"00:00:01.000 --> 00:00:03.000" / "foo" / "bar"`. -/
theorem C1_first_line_only_witness :
    parseLoop ["00:00:01.000 --> 00:00:03.000".toList, "foo".toList,
        "bar".toList] [] =
      tsMarker (pstrip ("00:00:01.000 --> 00:00:03.000".toList)) ::
        cleanLine (pstrip ("foo".toList)) :: [] :: parseLoop [] [] :=
  C1_first_line_only _ _ _ [] [] (by decide) (by decide) (by decide) (by decide)
    (by decide) (by decide) (by decide) (by decide)

/-- C2 counterexample: for the markup whose single cue text line `"<c></c>"`
strips to the empty string, the rendered output is a bare timestamp marker:
the marker line is not followed by any non-empty text line, and the cue
whose text is empty after stripping contributes its marker to the output
instead of being omitted entirely. -/
theorem C2_counterexample :
    cleanLine (pstrip ("<c></c>".toList)) = [] ∧
    parse_vtt_with_timestamps
        ("00:00:01.000 --> 00:00:02.000\n<c></c>".toList) =
      "[00:00:01.000 --> 00:00:02.000]".toList :=
  ⟨by decide, by decide⟩

/-- C2 (amended): the marker-emission rule of the Cue Parser: processing a
time-range line, the marker is emitted if and only if the next RAW line is
non-blank and not itself a time-range line (the peek does not strip tags, so
a raw-non-blank line whose text strips to empty still causes the marker to
be emitted); otherwise the cue is suppressed and the pending timestamp
cleared. -/
theorem C2_marker_emission (ts nxt : Str) (rest : List Str) (cur : Str)
    (h1 : isHeaderLine (pstrip ts) = false) (h2 : hasArrow (pstrip ts) = true) :
    parseLoop (ts :: nxt :: rest) cur =
      (if pstrip nxt ≠ [] ∧ hasArrow (pstrip nxt) = false then
        tsMarker (pstrip ts) :: parseLoop (nxt :: rest) (tsMarker (pstrip ts))
      else parseLoop (nxt :: rest) []) := by
  by_cases hc : pstrip nxt ≠ [] ∧ hasArrow (pstrip nxt) = false
  · rw [if_pos hc]
    simp only [parseLoop]
    simp [h1, h2, hc]
  · rw [if_neg hc]
    simp only [parseLoop]
    simp [h1, h2, hc]

/-- Witness for C2 (amended) at a time-range line followed by a blank line
(a settings-only cue: nothing is emitted). -/
theorem C2_marker_emission_witness :
    parseLoop ["00:00:01.000 --> 00:00:02.000".toList, [], "x".toList] [] =
      (if pstrip ([] : Str) ≠ [] ∧ hasArrow (pstrip ([] : Str)) = false then
        tsMarker (pstrip ("00:00:01.000 --> 00:00:02.000".toList)) ::
          parseLoop [[], "x".toList]
            (tsMarker (pstrip ("00:00:01.000 --> 00:00:02.000".toList)))
      else parseLoop [[], "x".toList] []) :=
  C2_marker_emission _ _ ["x".toList] [] (by decide) (by decide)

/-- C5 counterexample: for the markup of the claim (cue line, tagged text
line, blank line) the Timestamped Renderer does NOT return the claimed
string with a trailing newline: the final trim removes it. -/
theorem C5_counterexample :
    parse_vtt_with_timestamps
        ("00:00:01.000 --> 00:00:03.000\n<c>Hello</c> world\n\n".toList) ≠
      "[00:00:01.000 --> 00:00:03.000]\nHello world\n".toList := by decide

/-- C5 (amended): for the markup consisting of the cue line
`"00:00:01.000 --> 00:00:03.000"`, the text line `"<c>Hello</c> world"` and
a blank line, the Timestamped Renderer returns exactly
`"[00:00:01.000 --> 00:00:03.000]\nHello world"`, without a trailing
newline, consistent with the final leading/trailing-whitespace trim. -/
theorem C5_rendered_output :
    parse_vtt_with_timestamps
        ("00:00:01.000 --> 00:00:03.000\n<c>Hello</c> world\n\n".toList) =
      "[00:00:01.000 --> 00:00:03.000]\nHello world".toList := by decide

/-! ### Orchestrator lemmas -/

theorem fsHas_append_single (fs : List (Str × Str)) (p v q : Str) :
    fsHas (fs ++ [(p, v)]) q = (fsHas fs q || decide (p = q)) := by
  simp [fsHas, List.any_append]

theorem fsHas_fsRemove_self (fs : List (Str × Str)) (p : Str) :
    fsHas (fsRemove fs p) p = false := by
  induction fs with
  | nil => rfl
  | cons e rest ih =>
    simp only [fsRemove, List.filter_cons] at ih ⊢
    by_cases he : e.1 = p
    · rw [if_neg (by simp [he])]
      exact ih
    · rw [if_pos (by simp [he])]
      simp only [fsHas, List.any_cons] at ih ⊢
      simp [he, ih]

theorem find?_staged {L : List Str} {fs0 : List (Str × Str)} {p v : Str}
    (hp : p ∈ L) (hfs0 : ∀ q ∈ L, fsHas fs0 q = false) :
    L.find? (fun q => fsHas (fs0 ++ [(p, v)]) q) = some p := by
  induction L with
  | nil => simp at hp
  | cons A L' ih =>
    by_cases hA : fsHas (fs0 ++ [(p, v)]) A = true
    · have hfA : fsHas fs0 A = false := hfs0 A (List.mem_cons_self _ _)
      rw [fsHas_append_single, hfA, Bool.false_or, decide_eq_true_eq] at hA
      subst hA
      simp [List.find?_cons, fsHas_append_single, hfA]
    · rcases List.mem_cons.mp hp with h | h
      · subst h
        exact absurd (by simp [fsHas_append_single]) hA
      · rw [List.find?_cons]
        rw [Bool.not_eq_true] at hA
        rw [hA]
        exact ih h (fun q hq => hfs0 q (List.mem_cons_of_mem _ hq))

/-- C9: the cleanup invariant of the Pipeline Orchestrator: whenever the
caption-retrieval collaborator stages a subtitle file at one of the expected
paths (and that path was not already present), the file is removed by the
`finally` cleanup before `get_transcript_data` returns, on the success path
and on the empty-content error path alike: the staged artifact is not
addressable in the final file-system state. -/
theorem C9_cleanup (outcome : RetrievalOutcome) (tok : Str → List Str)
    (url lang : Str) (fs0 : List (Str × Str)) (vid p v : Str) (hcap : Bool)
    (hx : App.extract_video_id url = some vid) (hv : vid ≠ [])
    (ho : outcome = RetrievalOutcome.downloaded (some (p, v)) hcap)
    (hp : p ∈ possiblePaths vid lang)
    (hfs0 : ∀ q ∈ possiblePaths vid lang, fsHas fs0 q = false) :
    fsHas (get_transcript_data outcome tok url lang fs0).2 p = false := by
  subst ho
  simp only [get_transcript_data, hx]
  rw [if_neg hv]
  simp only [find?_staged hp hfs0]
  exact fsHas_fsRemove_self _ _

/-- C9 witness: a concrete invocation that stages and removes
`abc_transcript_en.en.vtt`. -/
theorem C9_cleanup_witness :
    fsHas (get_transcript_data
        (.downloaded (some ("abc_transcript_en.en.vtt".toList, "hello".toList))
          true)
        (fun _ => []) ("https://youtu.be/abc".toList) ("en".toList) []).2
      ("abc_transcript_en.en.vtt".toList) = false :=
  C9_cleanup
    (.downloaded (some ("abc_transcript_en.en.vtt".toList, "hello".toList)) true)
    (fun _ => []) ("https://youtu.be/abc".toList) ("en".toList) []
    ("abc".toList) ("abc_transcript_en.en.vtt".toList) ("hello".toList) true
    (by decide) (by decide) rfl (by decide) (by decide)

/-- C4 counterexample: retrieving the header-only markup `"WEBVTT"` for a
valid short-link URL yields a result whose timestamped string is empty,
whose paragraph string is the non-empty could-not-extract message, and whose
error field is `none`: neither "both strings populated" nor "error
populated" holds, so the claimed exactly-one invariant fails (the result is
partial). -/
theorem C4_counterexample :
    (get_transcript_data
        (.downloaded (some ("abc_transcript_en.en.vtt".toList, "WEBVTT".toList))
          true)
        (fun _ => []) ("https://youtu.be/abc".toList) ("en".toList) []).1 =
      ⟨[], couldNotExtractMsg, none⟩ ∧
    couldNotExtractMsg ≠ [] :=
  ⟨by decide, by decide⟩

/-- C4 (amended): the weaker invariant that does hold: whenever the
orchestrator's result carries no error, at least one of the two rendered
strings is non-empty; equivalently, when both renderings are empty and no
upstream error occurred, the "empty content" error is set.  (The result may
still be one-sided: exactly one string populated with no error, as the
counterexample shows.) -/
theorem C4_no_silent_empty (outcome : RetrievalOutcome) (tok : Str → List Str)
    (url lang : Str) (fs0 : List (Str × Str))
    (h : (get_transcript_data outcome tok url lang fs0).1.error = none) :
    (get_transcript_data outcome tok url lang fs0).1.timestamped ≠ [] ∨
      (get_transcript_data outcome tok url lang fs0).1.paragraph ≠ [] := by
  cases hx : App.extract_video_id url with
  | none => simp [get_transcript_data, hx] at h
  | some vid =>
    by_cases hv : vid = []
    · simp [get_transcript_data, hx, hv] at h
    · cases outcome with
      | noSubsFound => simp [get_transcript_data, hx, hv] at h
      | videoUnavailable => simp [get_transcript_data, hx, hv] at h
      | noVideoData => simp [get_transcript_data, hx, hv] at h
      | downloadFailed => simp [get_transcript_data, hx, hv] at h
      | unexpected m => simp [get_transcript_data, hx, hv] at h
      | downloaded staged hasCaptions =>
        cases staged with
        | none =>
          simp only [get_transcript_data, hx] at h ⊢
          rw [if_neg hv] at h ⊢
          cases hf : (possiblePaths vid lang).find? (fun q => fsHas fs0 q) with
          | none => simp [hf] at h
          | some pth =>
            simp only [hf] at h ⊢
            by_cases hts : parse_vtt_with_timestamps (fsRead fs0 pth) = []
            · by_cases hpa : format_transcript_into_paragraphs tok
                  (fsRead fs0 pth) 5 8 = []
              · rw [if_pos ⟨hts, hpa⟩] at h
                simp at h
              · exact Or.inr hpa
            · exact Or.inl hts
        | some pv =>
          simp only [get_transcript_data, hx] at h ⊢
          rw [if_neg hv] at h ⊢
          cases hf : (possiblePaths vid lang).find?
              (fun q => fsHas (fs0 ++ [pv]) q) with
          | none => simp [hf] at h
          | some pth =>
            simp only [hf] at h ⊢
            by_cases hts : parse_vtt_with_timestamps
                (fsRead (fs0 ++ [pv]) pth) = []
            · by_cases hpa : format_transcript_into_paragraphs tok
                  (fsRead (fs0 ++ [pv]) pth) 5 8 = []
              · rw [if_pos ⟨hts, hpa⟩] at h
                simp at h
              · exact Or.inr hpa
            · exact Or.inl hts

/-- C4 witness: a successful invocation with a real cue; the error is `none`
and the conclusion exhibits non-empty renderings. -/
theorem C4_no_silent_empty_witness :
    (get_transcript_data
        (.downloaded (some ("abc_transcript_en.en.vtt".toList,
          "00:00:01.000 --> 00:00:02.000\nhello".toList)) true)
        (fun _ => []) ("https://youtu.be/abc".toList) ("en".toList)
        []).1.timestamped ≠ [] ∨
    (get_transcript_data
        (.downloaded (some ("abc_transcript_en.en.vtt".toList,
          "00:00:01.000 --> 00:00:02.000\nhello".toList)) true)
        (fun _ => []) ("https://youtu.be/abc".toList) ("en".toList)
        []).1.paragraph ≠ [] :=
  C4_no_silent_empty
    (.downloaded (some ("abc_transcript_en.en.vtt".toList,
      "00:00:01.000 --> 00:00:02.000\nhello".toList)) true)
    (fun _ => []) ("https://youtu.be/abc".toList) ("en".toList) [] (by decide)

/-- C6 counterexample: for `https://m.youtube.com/embed/abc123`, the app's
Identifier Extractor returns the identifier `abc123`, while the claim's
description (embed-style prefixes recognized only for the MAIN domains, the
mobile domain only for the watch path, not-found in every other case)
returns not-found: the two disagree. -/
theorem C6_counterexample :
    App.extract_video_id ("https://m.youtube.com/embed/abc123".toList) =
      some ("abc123".toList) ∧
    claimExtract ("https://m.youtube.com/embed/abc123".toList) = none ∧
    App.extract_video_id ("https://m.youtube.com/embed/abc123".toList) ≠
      claimExtract ("https://m.youtube.com/embed/abc123".toList) :=
  ⟨by decide, by decide, by decide⟩

/-- C6 (amended): the characterization of both Identifier Extractors in the
claim's case order: short-link host → path without its leading separator;
recognized host and the canonical watch path → first `v` query value
(not-found when absent); recognized host and an embed-style or legacy-style
prefix → the following path segment; not-found otherwise.  Amended host
sets: the app extractor recognizes the main AND mobile domains for both the
watch path and the prefix paths; the script extractor recognizes only the
two main domains (no mobile domain at all). -/
theorem C6_extractor_characterization (url : Str) :
    App.extract_video_id url = claimShape allHosts allHosts url ∧
    Script.extract_video_id url = claimShape mainHosts mainHosts url := by
  constructor
  · simp only [App.extract_video_id, claimShape]
    cases hh : (urlparse url).hostname with
    | none => rfl
    | some h =>
      dsimp only
      by_cases h1 : h = "youtu.be".toList
      · subst h1
        have hA : ¬("youtu.be".toList = "www.youtube.com".toList ∨
            "youtu.be".toList = "youtube.com".toList ∨
            "youtu.be".toList = "m.youtube.com".toList) := by decide
        rw [if_neg hA, if_pos rfl, if_pos rfl]
      · rw [if_neg h1, if_neg h1]
        by_cases hA : h = "www.youtube.com".toList ∨ h = "youtube.com".toList ∨
            h = "m.youtube.com".toList
        · rw [if_pos hA]
          have hmem : h ∈ allHosts := by
            rcases hA with h' | h' | h' <;> simp [allHosts, mainHosts, h']
          by_cases hw : (urlparse url).path = "/watch".toList
          · rw [if_pos hw, if_pos ⟨hmem, hw⟩]
          · rw [if_neg hw]
            by_cases hpre : startswith ("/embed/".toList) (urlparse url).path ∨
                startswith ("/v/".toList) (urlparse url).path
            · rw [if_pos hpre, if_neg (fun hcon => hw hcon.2),
                if_pos ⟨hmem, hpre⟩]
            · rw [if_neg hpre, if_neg (fun hcon => hw hcon.2),
                if_neg (fun hcon => hpre hcon.2)]
        · rw [if_neg hA]
          have hmem : h ∉ allHosts := by
            intro hc
            apply hA
            simpa [allHosts, mainHosts] using hc
          rw [if_neg (fun hcon => hmem hcon.1), if_neg (fun hcon => hmem hcon.1)]
  · simp only [Script.extract_video_id, claimShape]
    cases hh : (urlparse url).hostname with
    | none => rfl
    | some h =>
      dsimp only
      by_cases h1 : h = "youtu.be".toList
      · rw [if_pos h1, if_pos h1]
      · rw [if_neg h1, if_neg h1]
        by_cases hA : h = "www.youtube.com".toList ∨ h = "youtube.com".toList
        · rw [if_pos hA]
          have hmem : h ∈ mainHosts := by
            rcases hA with h' | h' <;> simp [mainHosts, h']
          by_cases hw : (urlparse url).path = "/watch".toList
          · rw [if_pos hw, if_pos ⟨hmem, hw⟩]
          · rw [if_neg hw]
            by_cases hpre : startswith ("/embed/".toList) (urlparse url).path ∨
                startswith ("/v/".toList) (urlparse url).path
            · rw [if_pos hpre, if_neg (fun hcon => hw hcon.2),
                if_pos ⟨hmem, hpre⟩]
            · rw [if_neg hpre, if_neg (fun hcon => hw hcon.2),
                if_neg (fun hcon => hpre hcon.2)]
        · rw [if_neg hA]
          have hmem : h ∉ mainHosts := by
            intro hc
            apply hA
            simpa [mainHosts] using hc
          rw [if_neg (fun hcon => hmem hcon.1), if_neg (fun hcon => hmem hcon.1)]
